import Mathlib

/-!
Verification of the gokit observability pipeline (loki client, delivery
adapter, context-bound request logger) against its specification.  The Go
sources are embedded shallowly: Go machine integers become `Int`/`Nat`,
Go maps become association lists or functions, channels/goroutines become
explicit event traces, and `interface{}` values become a small sum type.
-/

namespace Gokit

/-- Log entry queued for Loki (`entry` in src/loki/loki.go).  The timestamp is
modelled as Unix nanoseconds, the value `e.Timestamp.UnixNano()` later
formatted by `sendBatch`. -/
structure entry where
  Timestamp : Int
  Message : String
  Level : String
deriving DecidableEq

/-- Stream of log entries sharing one label set (`stream`).  The Go label map
is modelled as an association list in insertion order; `Values` keeps the raw
`[][]string` shape: each value is the two-element list `[timestamp, message]`. -/
structure stream where
  Stream : List (String × String)
  Values : List (List String)
deriving DecidableEq

/-- Request body of Loki's push API (`pushRequest`). -/
structure pushRequest where
  Streams : List stream
deriving DecidableEq

/-- Configuration for the Loki client (`Config`).  `BatchWait` is in
nanoseconds.  The optional custom HTTP client performs network I/O and stays
outside the embedding. -/
structure Config where
  URL : String
  BatchSize : Int
  BatchWait : Int
  Labels : List (String × String)

/-- The constructed client (`Client`).  `queueCap` records the buffered-channel
capacity chosen at construction, `make(chan entry, config.BatchSize*2)`. -/
structure Client where
  URL : String
  BatchSize : Int
  BatchWait : Int
  Labels : List (String × String)
  queueCap : Int

/-- `NewClient`: defaulting of batch size (100), batch wait (1s) and the fixed
queue capacity.  The spawned background worker is modelled separately by
`stepWorker`/`runWorker`. -/
def NewClient (config : Config) : Client :=
  let bs := if config.BatchSize ≤ 0 then 100 else config.BatchSize
  let bw := if config.BatchWait ≤ 0 then 1000000000 else config.BatchWait
  { URL := config.URL, BatchSize := bs, BatchWait := bw,
    Labels := config.Labels, queueCap := bs * 2 }

/-- `Client.Log`: the non-blocking `select` with a `default` branch on the
buffered queue.  A buffered-channel send succeeds exactly when the buffer holds
fewer than `queueCap` elements; otherwise the entry is dropped and the local
diagnostic is printed.  The result is the new queue plus the diagnostic, if
any; the function is total, so the caller never blocks and receives no error. -/
def Log (queueCap : Int) (queue : List entry) (timestamp : Int)
    (level message : String) : List entry × Option String :=
  if (queue.length : Int) < queueCap then
    (queue ++ [{ Timestamp := timestamp, Message := message, Level := level }], none)
  else
    (queue, some ("Loki client queue full, dropping log entry: " ++ message))

/-- One wake-up of the `processQueue` worker's `select`: the closed `done`
channel, a dequeued entry, or a ticker tick. -/
inductive WorkerEvent where
  | done : WorkerEvent
  | recv : entry → WorkerEvent
  | tick : WorkerEvent
deriving DecidableEq

/-- Worker-loop state: the in-memory batch, and whether the goroutine has
returned (after which it processes nothing further). -/
structure WorkerState where
  batch : List entry
  stopped : Bool
deriving DecidableEq

/-- One iteration of the `processQueue` loop.  The second component is the
batch handed to `sendBatch` on this iteration (`none` when no flush happens,
hence no HTTP call). -/
def stepWorker (batchSize : Int) (s : WorkerState) (ev : WorkerEvent) :
    WorkerState × Option (List entry) :=
  if s.stopped then (s, none)
  else
    match ev with
    | .done => ({ s with stopped := true },
                if s.batch.length > 0 then some s.batch else none)
    | .recv e =>
      let batch := s.batch ++ [e]
      if (batch.length : Int) ≥ batchSize then
        ({ batch := [], stopped := false }, some batch)
      else
        ({ batch := batch, stopped := false }, none)
    | .tick =>
      if s.batch.length > 0 then ({ batch := [], stopped := false }, some s.batch)
      else (s, none)

/-- The worker run over a whole trace of events, collecting every flushed
batch in order. -/
def runWorker (batchSize : Int) : WorkerState → List WorkerEvent → WorkerState × List (List entry)
  | s, [] => (s, [])
  | s, ev :: evs =>
    let step := stepWorker batchSize s ev
    let rest := runWorker batchSize step.1 evs
    (rest.1, step.2.toList ++ rest.2)

/-- `entriesByLevel[e.Level] = append(entriesByLevel[e.Level], e)` in
`sendBatch`: the Go map from level to its entries is modelled as an association
list; an absent key is created at the end.  Go map iteration order is
unspecified, so the model fixes first-insertion order, which no claim
constrains. -/
def addToLevelGroup (groups : List (String × List entry)) (e : entry) :
    List (String × List entry) :=
  if groups.any (fun g => g.1 = e.Level) then
    groups.map (fun g => if g.1 = e.Level then (g.1, g.2 ++ [e]) else g)
  else
    groups ++ [(e.Level, [e])]

/-- The grouping loop of `sendBatch`. -/
def entriesByLevel (entries : List entry) : List (String × List entry) :=
  entries.foldl addToLevelGroup []

/-- The distinct levels of a batch in first-appearance order (the key set of
`entriesByLevel`); proof-side companion of the grouping loop. -/
def levelsOf (entries : List entry) : List String :=
  entries.foldl (fun acc e => if e.Level ∈ acc then acc else acc ++ [e.Level]) []

/-- `labels[k] = v` on a Go map modelled as an association list: overwrite the
key where present, append it otherwise. -/
def setLabel (m : List (String × String)) (k v : String) : List (String × String) :=
  if m.any (fun p => p.1 = k) then
    m.map (fun p => if p.1 = k then (p.1, v) else p)
  else
    m ++ [(k, v)]

/-- Go map lookup on the association-list model: the first binding of the key. -/
def lookupLabel : List (String × String) → String → Option String
  | [], _ => none
  | p :: rest, k => if p.1 = k then some p.2 else lookupLabel rest k

/-- The stream `sendBatch` builds for one level group: a copy of the
configured default labels with `labels["level"] = level`, and one
`[timestamp, message]` value per entry of the group, in order, the timestamp
printed with `fmt.Sprintf("%d", e.Timestamp.UnixNano())`. -/
def streamOfGroup (defaults : List (String × String)) (g : String × List entry) : stream :=
  { Stream := setLabel defaults "level" g.1,
    Values := g.2.map (fun e => [toString e.Timestamp, e.Message]) }

/-- The `pushRequest` that `sendBatch` serializes and posts (the JSON encoding
and the HTTP POST are external I/O beyond this point). -/
def sendBatchRequest (defaults : List (String × String)) (entries : List entry) :
    pushRequest :=
  { Streams := (entriesByLevel entries).map (streamOfGroup defaults) }

/-- Character-list prefix test, the base of the `strings.Contains` model. -/
def hasPrefixChars : List Char → List Char → Bool
  | [], _ => true
  | _ :: _, [] => false
  | p :: ps, c :: cs => p = c && hasPrefixChars ps cs

/-- Substring search over character lists. -/
def containsChars (sub : List Char) : List Char → Bool
  | [] => sub.isEmpty
  | c :: cs => hasPrefixChars sub (c :: cs) || containsChars sub cs

/-- `strings.Contains` (the `contains` helper of the logger package), modelled
over the characters of the strings. -/
def contains (s substr : String) : Bool := containsChars substr.data s.data

/-- Severity inference of `lokiWriter.Write`: `level` starts as `"info"`; when
the rendered line is non-empty, the `switch` assigns the first of the five
keywords found as a substring, in the source's fixed case order; a line
matching none keeps `"info"`. -/
def lokiWriterLevel (p : String) : String :=
  if p.data.length > 0 then
    let lowered := p
    if contains lowered "debug" then "debug"
    else if contains lowered "info" then "info"
    else if contains lowered "warn" then "warn"
    else if contains lowered "error" then "error"
    else if contains lowered "fatal" then "fatal"
    else "info"
  else "info"

/-- The level constants of the context logger (`err`, `debug`, `print`); their
defining file is not under src/, but the constructors named here are exactly
the constants the source methods store. -/
inductive LogLevel where
  | err : LogLevel
  | debug : LogLevel
  | print : LogLevel
deriving DecidableEq

/-- A deferred log message accumulated in the request store (`LogMessage`,
fields `File`, `Level`, `Message` as used by the source methods). -/
structure LogMessage where
  File : String
  Level : LogLevel
  Message : String
deriving DecidableEq

/-- The slot keys used by the source: `_LogMessages`, `RequestId`, `_SaltKey`. -/
inductive StoreKey where
  | logMessages : StoreKey
  | requestId : StoreKey
  | saltKey : StoreKey
deriving DecidableEq

/-- An `interface{}` value held in a store slot: a `[]LogMessage`, a `string`,
a stored typed `nil`, or any other value (on which type assertions fail). -/
inductive StoreVal where
  | msgs : List LogMessage → StoreVal
  | str : String → StoreVal
  | null : StoreVal
  | other : StoreVal
deriving DecidableEq

/-- Modelled from the spec: the sync-map-like per-request store ("a
concurrency-safe, per-request key/value slot set … reached via a context
key"); the file defining it is not under src/.  Each of `Load`, `Set` and
`LoadAndDelete` is one individually atomic operation, per the Go `sync.Map`
contract the spec describes. -/
def Store := StoreKey → Option StoreVal

/-- `value.Load(k)`. -/
def Store.load (st : Store) (k : StoreKey) : Option StoreVal := st k

/-- `value.Set(k, v)`. -/
def Store.set (st : Store) (k : StoreKey) (v : StoreVal) : Store :=
  fun k2 => if k2 = k then some v else st k2

/-- `value.LoadAndDelete(k)`: the previous value and the store with the key
removed, as one atomic step. -/
def Store.loadAndDelete (st : Store) (k : StoreKey) : Option StoreVal × Store :=
  (st k, fun k2 => if k2 = k then none else st k2)

/-- A store with no slot bound. -/
def emptyStore : Store := fun _ => none

/-- The `tmp, ok := …; if ok && tmp != nil { if cast ok { messages = existing } }`
recovery of the accumulated messages: anything but a `[]LogMessage` value
leaves `messages` nil. -/
def loadedMessages : Option StoreVal → List LogMessage
  | some (.msgs l) => l
  | _ => []

/-- The accumulated message sequence of a store (contents of the
`_LogMessages` slot as the source methods read it). -/
def storedMessages (st : Store) : List LogMessage :=
  loadedMessages (st StoreKey.logMessages)

/-- An execution context as the logger methods see it: a nil context, a
context carrying no store (`extract` fails), or one carrying a store. -/
inductive Ctx where
  | nilCtx : Ctx
  | noStore : Ctx
  | withStore : Store → Ctx

/-- The accumulated messages reachable from a context. -/
def ctxMessages : Ctx → List LogMessage
  | .withStore st => storedMessages st
  | _ => []

/-- One appender of the context logger, split at its two store operations:
pc 0 = about to `LoadAndDelete(_LogMessages)`, pc 1 = holding the loaded
messages and about to `Set(_LogMessages, …)`, pc 2 = done.  `msg` is the
`LogMessage` the call appends. -/
structure AppendThread where
  pc : Nat
  acc : List LogMessage
  msg : LogMessage

/-- One atomic store operation of an appender (the source's
`value.LoadAndDelete(_LogMessages)` respectively `value.Set(_LogMessages,
append(messages, message))`). -/
def appendStep (st : Store) (t : AppendThread) : Store × AppendThread :=
  match t.pc with
  | 0 =>
    let r := st.loadAndDelete .logMessages
    (r.2, { t with pc := 1, acc := loadedMessages r.1 })
  | 1 =>
    (st.set .logMessages (.msgs (t.acc ++ [t.msg])), { t with pc := 2 })
  | _ => (st, t)

/-- One complete append whose two store operations run back to back with no
interleaved thread. -/
def appendMessage (st : Store) (m : LogMessage) : Store :=
  let s1 := appendStep st { pc := 0, acc := [], msg := m }
  (appendStep s1.1 s1.2).1

/-- Serialized appends of a whole message list. -/
def appendAll (st : Store) (ms : List LogMessage) : Store :=
  ms.foldl appendMessage st

/-- Two concurrent appenders driven by an explicit interleaving: `false` steps
thread `a`, `true` steps thread `b`. -/
def runSched : Store × AppendThread × AppendThread → List Bool → Store × AppendThread × AppendThread
  | s, [] => s
  | (st, a, b), false :: rest =>
    let r := appendStep st a
    runSched (r.1, r.2, b) rest
  | (st, a, b), true :: rest =>
    let r := appendStep st b
    runSched (r.1, a, r.2) rest

/-- `strings.Split(s, "/")` on the character list: single-character separator
split, one (possibly empty) group per separator gap. -/
def splitOnSlashChars : List Char → List (List Char)
  | [] => [[]]
  | c :: cs =>
    if c = '/' then [] :: splitOnSlashChars cs
    else
      match splitOnSlashChars cs with
      | [] => [[c]]
      | g :: gs => (c :: g) :: gs

/-- `strings.Split(fileName, "/")`. -/
def splitSlash (s : String) : List String :=
  (splitOnSlashChars s.data).map String.mk

/-- `strings.Join(parts, "/")` on character lists. -/
def joinSlashChars : List (List Char) → List Char
  | [] => []
  | [g] => g
  | g :: gs => g ++ '/' :: joinSlashChars gs

/-- `strings.Join(parts, "/")`. -/
def joinSlash (parts : List String) : String :=
  String.mk (joinSlashChars (parts.map String.data))

/-- The caller-location formatting shared by Errorf/Error/Debug/DebugF/
Printf/Print: `fileName` and `line` stand for the results of
`runtime.Caller(1)`.  Paths of more than three segments keep only the last
two; shorter paths are joined back whole. -/
def formatCaller (fileName : String) (line : Nat) : String :=
  let files := splitSlash fileName
  if files.length > 3 then
    joinSlash (files.drop (files.length - 2)) ++ ":" ++ toString line
  else
    joinSlash files ++ ":" ++ toString line

/-- The spec's description of the recorded caller location ("at most the last
two path segments of the calling file's path, followed by a colon and the line
number"), stated from the spec's words for comparison with `formatCaller`. -/
def specCallerLocation (fileName : String) (line : Nat) : String :=
  let files := splitSlash fileName
  joinSlash (files.drop (files.length - 2)) ++ ":" ++ toString line

/-- `logger.Errorf` (and, with the same store behaviour, `logger.Error`): the
rendered `fmt.Sprintf(format, args...)` result is the `message` argument.
Returns the new context and the lines printed to standard output. -/
def Errorf (c : Ctx) (fileName : String) (line : Nat) (message : String) :
    Ctx × List String :=
  match c with
  | .nilCtx => (.nilCtx, ["ERROR: " ++ message ++ " (nil context)"])
  | .noStore => (.noStore, ["ERROR: " ++ message ++ " (logger not found in context)"])
  | .withStore st =>
    let file := formatCaller fileName line
    (.withStore (appendMessage st { File := file, Level := .err, Message := message }), [])

/-- `strings.ToUpper`, modelled character-wise (faithful on ASCII, which
covers the `"PRODUCTION"` comparison). -/
def toUpperStr (s : String) : String := String.mk (s.data.map Char.toUpper)

/-- `logger.DebugF`.  `env` models the process environment read through
`env.GetString` on this very call (the utils/env package is not under src/;
modelled from the spec: "a process-wide environment flag … evaluated per
call, not cached").  The `!reflect.ValueOf(appEnv).IsZero()` guard is the
non-empty-string test. -/
def DebugF (env : String → String) (c : Ctx) (fileName : String) (line : Nat)
    (message : String) : Ctx × List String :=
  let appEnv := toUpperStr (env "APP_ENV")
  if appEnv ≠ "" ∧ appEnv = "PRODUCTION" then (c, [])
  else
    match c with
    | .nilCtx => (.nilCtx, ["DEBUG: " ++ message ++ " (nil context)"])
    | .noStore => (.noStore, ["DEBUG: " ++ message ++ " (logger not found in context)"])
    | .withStore st =>
      let file := formatCaller fileName line
      (.withStore (appendMessage st { File := file, Level := .debug, Message := message }), [])

/-- `logger.Debug`; identical to `DebugF` except that the message is rendered
with `fmt.Sprint`, which the model receives already rendered. -/
def Debug (env : String → String) (c : Ctx) (fileName : String) (line : Nat)
    (message : String) : Ctx × List String :=
  let appEnv := toUpperStr (env "APP_ENV")
  if appEnv ≠ "" ∧ appEnv = "PRODUCTION" then (c, [])
  else
    match c with
    | .nilCtx => (.nilCtx, ["DEBUG: " ++ message ++ " (nil context)"])
    | .noStore => (.noStore, ["DEBUG: " ++ message ++ " (logger not found in context)"])
    | .withStore st =>
      let file := formatCaller fileName line
      (.withStore (appendMessage st { File := file, Level := .debug, Message := message }), [])

/-- Lowercase hex digit (0-9, a-f). -/
def hexDigit (n : Nat) : Char :=
  if n < 10 then Char.ofNat (48 + n) else Char.ofNat (87 + n)

/-- One byte as two lowercase hex characters. -/
def byteHexChars (b : Nat) : List Char :=
  [hexDigit (b / 16 % 16), hexDigit (b % 16)]

/-- Modelled from the external library github.com/google/uuid:
`uuid.New().String()` renders 16 random bytes as lowercase hex in the
8-4-4-4-12 layout; the function parameter stands for the random bytes drawn. -/
def uuidChars (b : Fin 16 → Nat) : List Char :=
  byteHexChars (b 0) ++ byteHexChars (b 1) ++ byteHexChars (b 2) ++ byteHexChars (b 3) ++
    ['-'] ++ byteHexChars (b 4) ++ byteHexChars (b 5) ++
    ['-'] ++ byteHexChars (b 6) ++ byteHexChars (b 7) ++
    ['-'] ++ byteHexChars (b 8) ++ byteHexChars (b 9) ++
    ['-'] ++ byteHexChars (b 10) ++ byteHexChars (b 11) ++ byteHexChars (b 12) ++
    byteHexChars (b 13) ++ byteHexChars (b 14) ++ byteHexChars (b 15)

/-- The string `uuid.New().String()` returns, for the drawn bytes `b`. -/
def uuidString (b : Fin 16 → Nat) : String := String.mk (uuidChars b)

/-- The tail of `GetRequestId` after a successful extract: `!ok || val == nil`
falls back to a fresh UUID, then the string type assertion with the non-empty
test returns the stored value, and anything else falls back as well. -/
def requestIdFrom (b : Fin 16 → Nat) : Option StoreVal → String
  | none => uuidString b
  | some .null => uuidString b
  | some (.str v) => if v ≠ "" then v else uuidString b
  | some _ => uuidString b

/-- `GetRequestId`: `b` models the random bytes `uuid.New()` would draw were a
fresh identifier needed. -/
def GetRequestId (b : Fin 16 → Nat) (c : Ctx) : String :=
  match c with
  | .nilCtx => uuidString b
  | .noStore => uuidString b
  | .withStore st => requestIdFrom b (st.load .requestId)

namespace Lemmas

/-- A returned worker processes nothing: once `stopped`, any further events
leave the state unchanged and flush nothing. -/
theorem runWorker_stopped (bs : Int) :
    ∀ (evs : List WorkerEvent) (s : WorkerState), s.stopped = true →
      runWorker bs s evs = (s, []) := by
  intro evs
  induction evs with
  | nil => intro s _; rfl
  | cons ev evs ih =>
    intro s h
    simp [runWorker, stepWorker, h, ih s h]

/-- One serialized append adds exactly its message at the end. -/
theorem storedMessages_appendMessage (st : Store) (m : LogMessage) :
    storedMessages (appendMessage st m) = storedMessages st ++ [m] := by
  simp [appendMessage, appendStep, Store.loadAndDelete, Store.set,
    storedMessages, loadedMessages]

/-- Serialized appends accumulate every message in order. -/
theorem storedMessages_appendAll (st : Store) (ms : List LogMessage) :
    storedMessages (appendAll st ms) = storedMessages st ++ ms := by
  induction ms generalizing st with
  | nil => simp [appendAll]
  | cons m ms ih =>
    have : appendAll st (m :: ms) = appendAll (appendMessage st m) ms := rfl
    rw [this, ih, storedMessages_appendMessage, List.append_assoc]
    rfl

/-- `strings.Split` never returns an empty slice. -/
theorem splitOnSlashChars_ne_nil (l : List Char) : splitOnSlashChars l ≠ [] := by
  cases l with
  | nil => simp [splitOnSlashChars]
  | cons c cs =>
    simp only [splitOnSlashChars]
    split
    · simp
    · split <;> simp

/-- Joining the split groups with the separator restores the original
characters. -/
theorem joinSlashChars_splitOnSlashChars (l : List Char) :
    joinSlashChars (splitOnSlashChars l) = l := by
  induction l with
  | nil => rfl
  | cons c cs ih =>
    by_cases h : c = '/'
    · subst h
      simp only [splitOnSlashChars, if_pos rfl]
      cases hs : splitOnSlashChars cs with
      | nil => exact absurd hs (splitOnSlashChars_ne_nil cs)
      | cons g gs =>
        rw [hs] at ih
        simpa [joinSlashChars] using ih
    · simp only [splitOnSlashChars, if_neg h]
      cases hs : splitOnSlashChars cs with
      | nil => exact absurd hs (splitOnSlashChars_ne_nil cs)
      | cons g gs =>
        rw [hs] at ih
        cases gs with
        | nil => simpa [joinSlashChars] using ih
        | cons g2 gs2 => simpa [joinSlashChars] using ih

/-- `strings.Join(strings.Split(s, "/"), "/") = s`. -/
theorem joinSlash_splitSlash (s : String) : joinSlash (splitSlash s) = s := by
  unfold joinSlash splitSlash
  rw [List.map_map]
  have hmap : (splitOnSlashChars s.data).map (String.data ∘ String.mk)
      = splitOnSlashChars s.data := by
    rw [show String.data ∘ String.mk = id from rfl, List.map_id]
  rw [hmap, joinSlashChars_splitOnSlashChars]

/-- The rendered UUID is never the empty string. -/
theorem uuidString_ne_empty (b : Fin 16 → Nat) : uuidString b ≠ "" := by
  intro h
  have hd : uuidChars b = [] := congrArg String.data h
  rw [uuidChars] at hd
  simp only [List.append_eq_nil, byteHexChars] at hd
  exact List.cons_ne_nil _ _ hd.2

/-- A string containing a non-empty substring is itself non-empty. -/
theorem contains_data_ne_nil {s sub : String} (hsub : sub.data.isEmpty = false)
    (h : contains s sub = true) : s.data.length > 0 := by
  cases hd : s.data with
  | nil =>
    rw [contains, hd] at h
    rw [show containsChars sub.data [] = sub.data.isEmpty from rfl, hsub] at h
    exact absurd h (by simp)
  | cons c cs => simp [hd]

/-- Generic: `any` over a mapped list tests the composed predicate. -/
theorem any_map_comp {α β : Type} (l : List α) (f : α → β) (p : β → Bool) :
    (l.map f).any p = l.any (fun x => p (f x)) := by
  induction l with
  | nil => rfl
  | cons x xs ih => simp [ih]

/-- Generic: `flatMap` over a mapped list flattens the composed function. -/
theorem flatMap_map_comp {α β γ : Type} (l : List α) (f : α → β) (g : β → List γ) :
    (l.map f).flatMap g = l.flatMap (fun x => g (f x)) := by
  induction l with
  | nil => rfl
  | cons x xs ih => simp [ih]

/-- Counting in a flattened list sums the counts of the pieces. -/
theorem count_flatMap_eq_sum {α β : Type} [DecidableEq β] (l : List α)
    (f : α → List β) (b : β) :
    (l.flatMap f).count b = (l.map (fun a => (f a).count b)).sum := by
  induction l with
  | nil => rfl
  | cons x xs ih => simp [List.count_append, ih]

/-- Summing an indicator over a list without the key gives zero. -/
theorem sum_ite_eq_zero {α : Type} [DecidableEq α] (L : List α) (k : α) (c : Nat)
    (h : k ∉ L) : (L.map (fun l => if k = l then c else 0)).sum = 0 := by
  induction L with
  | nil => rfl
  | cons x xs ih =>
    have hx : k ≠ x := fun he => h (he ▸ List.mem_cons_self x xs)
    have hxs : k ∉ xs := fun hm => h (List.mem_cons_of_mem x hm)
    simp [hx, ih hxs]

/-- Summing an indicator over a duplicate-free list containing the key gives
the indicated value once. -/
theorem sum_ite_eq_single {α : Type} [DecidableEq α] (L : List α) (k : α) (c : Nat)
    (hnd : L.Nodup) (h : k ∈ L) :
    (L.map (fun l => if k = l then c else 0)).sum = c := by
  induction L with
  | nil => exact absurd h (List.not_mem_nil k)
  | cons x xs ih =>
    rcases List.mem_cons.mp h with he | hm
    · subst he
      have hx : k ∉ xs := (List.nodup_cons.mp hnd).1
      simp [sum_ite_eq_zero xs k c hx]
    · have hx : k ≠ x := by
        rintro rfl
        exact (List.nodup_cons.mp hnd).1 hm
      simp [hx, ih (List.nodup_cons.mp hnd).2 hm]

/-- The length of the sublist equal to a key in a duplicate-free list. -/
theorem filter_eq_key_length {α : Type} [DecidableEq α] (L : List α) (k : α)
    (hnd : L.Nodup) :
    (L.filter (fun l => l = k)).length = if k ∈ L then 1 else 0 := by
  induction L with
  | nil => rfl
  | cons x xs ih =>
    rcases List.nodup_cons.mp hnd with ⟨hx, hxs⟩
    rw [List.filter_cons]
    by_cases hxk : x = k
    · subst hxk
      have h1 : (xs.filter (fun l => l = x)).length = 0 := by
        rw [ih hxs, if_neg hx]
      simp [h1]
    · have hkx : ¬(k = x) := fun hh => hxk hh.symm
      simp [hxk, hkx, ih hxs]

/-- Counting an element in the sublist of one level: everything or nothing. -/
theorem count_filter_level (es : List entry) (l : String) (a : entry) :
    (es.filter (fun x => x.Level = l)).count a
      = if a.Level = l then es.count a else 0 := by
  by_cases h : a.Level = l
  · rw [if_pos h]
    exact List.count_filter (by simpa using h)
  · rw [if_neg h]
    rw [List.count_eq_zero]
    intro hm
    exact h (by simpa using (List.mem_filter.mp hm).2)

/-- `levelsOf` over a batch extended by one entry. -/
theorem levelsOf_concat (es : List entry) (e : entry) :
    levelsOf (es ++ [e])
      = if e.Level ∈ levelsOf es then levelsOf es else levelsOf es ++ [e.Level] :=
  List.foldl_concat _ _ _ _

/-- A level is recorded exactly when some entry of the batch carries it. -/
theorem mem_levelsOf (l : String) : ∀ es : List entry,
    (l ∈ levelsOf es ↔ ∃ x ∈ es, x.Level = l) := by
  intro es
  induction es using List.reverseRecOn with
  | nil => simp [levelsOf]
  | append_singleton es e ih =>
    rw [levelsOf_concat]
    by_cases h : e.Level ∈ levelsOf es
    · rw [if_pos h]
      constructor
      · intro hm
        rcases ih.mp hm with ⟨x, hx, hxl⟩
        exact ⟨x, List.mem_append_left _ hx, hxl⟩
      · intro ⟨x, hx, hxl⟩
        rcases List.mem_append.mp hx with hx2 | hx2
        · exact ih.mpr ⟨x, hx2, hxl⟩
        · have : x = e := by simpa using hx2
          subst this
          exact hxl ▸ h
    · rw [if_neg h]
      rw [List.mem_append]
      constructor
      · intro hm
        rcases hm with hm | hm
        · rcases ih.mp hm with ⟨x, hx, hxl⟩
          exact ⟨x, List.mem_append_left _ hx, hxl⟩
        · have : l = e.Level := by simpa using hm
          exact ⟨e, List.mem_append_right _ (by simp), this.symm⟩
      · intro ⟨x, hx, hxl⟩
        rcases List.mem_append.mp hx with hx2 | hx2
        · exact Or.inl (ih.mpr ⟨x, hx2, hxl⟩)
        · have : x = e := by simpa using hx2
          subst this
          exact Or.inr (by simp [hxl])

/-- The recorded levels are duplicate-free. -/
theorem nodup_levelsOf : ∀ es : List entry, (levelsOf es).Nodup := by
  intro es
  induction es using List.reverseRecOn with
  | nil => simp [levelsOf]
  | append_singleton es e ih =>
    rw [levelsOf_concat]
    by_cases h : e.Level ∈ levelsOf es
    · rw [if_pos h]
      exact ih
    · rw [if_neg h]
      rw [List.nodup_append]
      exact ⟨ih, List.nodup_singleton _, by
        intro x hx hx2
        have : x = e.Level := by simpa using hx2
        exact h (this ▸ hx)⟩

/-- `entriesByLevel` over a batch extended by one entry. -/
theorem entriesByLevel_concat (es : List entry) (e : entry) :
    entriesByLevel (es ++ [e]) = addToLevelGroup (entriesByLevel es) e :=
  List.foldl_concat _ _ _ _

/-- The grouping loop of `sendBatch` produces, in first-appearance order, one
group per distinct level whose content is the stable filter of the batch by
that level. -/
theorem entriesByLevel_eq : ∀ es : List entry,
    entriesByLevel es
      = (levelsOf es).map (fun l => (l, es.filter (fun x => x.Level = l))) := by
  intro es
  induction es using List.reverseRecOn with
  | nil => rfl
  | append_singleton es e ih =>
    rw [entriesByLevel_concat, ih, levelsOf_concat, addToLevelGroup]
    rw [any_map_comp]
    by_cases h : e.Level ∈ levelsOf es
    · have hany : ((levelsOf es).any fun x => decide (x = e.Level)) = true := by
        rw [List.any_eq_true]
        exact ⟨e.Level, h, by simp⟩
      rw [if_pos h]
      simp only [hany, if_pos]
      rw [List.map_map]
      apply List.map_congr_left
      intro l hl
      by_cases hle : l = e.Level
      · subst hle
        simp [List.filter_append]
      · have hnl : ¬(decide (e.Level = l) = true) := by
          simpa using fun hh => hle hh.symm
        simp only [Function.comp]
        rw [if_neg hle]
        simp [List.filter_append, hnl]
    · have hany : ((levelsOf es).any fun x => decide (x = e.Level)) = false := by
        rw [List.any_eq_false]
        intro x hx
        simp only [decide_eq_true_eq]
        rintro rfl
        exact h hx
      rw [if_neg h]
      simp only [hany, Bool.false_eq_true, if_false]
      rw [List.map_append]
      congr 1
      · apply List.map_congr_left
        intro l hl
        have hle : e.Level ≠ l := by
          rintro rfl
          exact h hl
        simp [List.filter_append, hle]
      · have hnil : es.filter (fun x => x.Level = e.Level) = [] := by
          rw [List.filter_eq_nil_iff]
          intro x hx
          simp only [decide_eq_true_eq]
          intro hxl
          exact h ((mem_levelsOf e.Level es).mpr ⟨x, hx, hxl⟩)
        simp [List.filter_append, hnil]

/-- The level groups partition the batch: every entry lands in exactly one
group (counted as a permutation of the batch). -/
theorem partition_perm (es : List entry) :
    ((levelsOf es).flatMap (fun l => es.filter (fun x => x.Level = l))).Perm es := by
  rw [List.perm_iff_count]
  intro a
  rw [count_flatMap_eq_sum]
  have hcongr : (levelsOf es).map (fun l => (es.filter (fun x => x.Level = l)).count a)
      = (levelsOf es).map (fun l => if a.Level = l then es.count a else 0) :=
    List.map_congr_left (fun l _ => count_filter_level es l a)
  rw [hcongr]
  by_cases h : a.Level ∈ levelsOf es
  · exact sum_ite_eq_single _ _ _ (nodup_levelsOf es) h
  · have ha : a ∉ es := fun hm => h ((mem_levelsOf a.Level es).mpr ⟨a, hm, rfl⟩)
    rw [sum_ite_eq_zero _ _ _ h, Eq.comm, List.count_eq_zero]
    exact ha

/-- Overwriting an existing key in place: reading the key back gives the new
value. -/
theorem lookup_map_set_self (k v : String) : ∀ m : List (String × String),
    m.any (fun p => p.1 = k) = true →
    lookupLabel (m.map (fun p => if p.1 = k then (p.1, v) else p)) k = some v := by
  intro m
  induction m with
  | nil => intro h; simp at h
  | cons p rest ih =>
    intro h
    by_cases hp : p.1 = k
    · simp only [List.map_cons, if_pos hp, lookupLabel, hp, if_pos]
    · have hrest : rest.any (fun p => p.1 = k) = true := by
        rcases List.any_eq_true.mp h with ⟨q, hq, hqk⟩
        rcases List.mem_cons.mp hq with he | hm
        · subst he
          exact absurd (by simpa using hqk) hp
        · exact List.any_eq_true.mpr ⟨q, hm, hqk⟩
      simp only [List.map_cons, if_neg hp, lookupLabel, hp, if_false]
      exact ih hrest

/-- Overwriting one key in place leaves the lookup of any other key unchanged
(the overwrite keeps the keys of the list as they are). -/
theorem lookup_map_set_other (k v k2 : String) (hne : k2 ≠ k) :
    ∀ m : List (String × String),
    lookupLabel (m.map (fun p => if p.1 = k then (p.1, v) else p)) k2
      = lookupLabel m k2 := by
  intro m
  induction m with
  | nil => rfl
  | cons p rest ih =>
    by_cases hp : p.1 = k
    · have hp2 : ¬(p.1 = k2) := fun hh => hne (hh ▸ hp)
      simp only [List.map_cons, if_pos hp, lookupLabel, hp2, if_false]
      exact ih
    · simp only [List.map_cons, if_neg hp, lookupLabel]
      by_cases hp2 : p.1 = k2
      · rw [if_pos hp2, if_pos hp2]
      · rw [if_neg hp2, if_neg hp2]
        exact ih

/-- Appending a fresh binding: reading its key gives its value when no earlier
binding uses the key. -/
theorem lookup_append_single_self (k v : String) : ∀ m : List (String × String),
    (∀ p ∈ m, ¬(p.1 = k)) → lookupLabel (m ++ [(k, v)]) k = some v := by
  intro m
  induction m with
  | nil =>
    intro _
    simp [lookupLabel]
  | cons p rest ih =>
    intro h
    have hp : ¬(p.1 = k) := h p (List.mem_cons_self p rest)
    simp only [List.cons_append, lookupLabel, hp, if_false]
    exact ih (fun q hq => h q (List.mem_cons_of_mem p hq))

/-- Appending a binding for one key leaves the lookup of any other key
unchanged. -/
theorem lookup_append_single_other (k v k2 : String) (hne : k2 ≠ k) :
    ∀ m : List (String × String),
    lookupLabel (m ++ [(k, v)]) k2 = lookupLabel m k2 := by
  intro m
  induction m with
  | nil =>
    have hk : ¬(k = k2) := fun hh => hne hh.symm
    simp [lookupLabel, hk]
  | cons p rest ih =>
    simp only [List.cons_append, lookupLabel]
    by_cases hp2 : p.1 = k2
    · rw [if_pos hp2, if_pos hp2]
    · rw [if_neg hp2, if_neg hp2]
      exact ih

/-- Setting a label then reading it back gives the new value. -/
theorem lookup_setLabel_self (m : List (String × String)) (k v : String) :
    lookupLabel (setLabel m k v) k = some v := by
  rw [setLabel]
  by_cases h : m.any (fun p => p.1 = k)
  · rw [if_pos h]
    exact lookup_map_set_self k v m h
  · rw [if_neg h]
    refine lookup_append_single_self k v m ?_
    intro p hp hpk
    exact h (List.any_eq_true.mpr ⟨p, hp, by simpa using hpk⟩)

/-- Setting one label leaves every other label unchanged. -/
theorem lookup_setLabel_other (m : List (String × String)) (k v k2 : String)
    (hne : k2 ≠ k) : lookupLabel (setLabel m k v) k2 = lookupLabel m k2 := by
  rw [setLabel]
  by_cases h : m.any (fun p => p.1 = k)
  · rw [if_pos h]
    exact lookup_map_set_other k v k2 hne m
  · rw [if_neg h]
    exact lookup_append_single_other k v k2 hne m

end Lemmas

open Lemmas

/-- C1: `sendBatch` builds exactly one stream per distinct severity present in
the flushed batch (counted via each stream's "level" label); the streams
together hold every flushed record exactly once, as the value pairs
`[decimal Unix-nanosecond timestamp, message]`; within a stream the values are
the batch's records of that severity in arrival order; and each stream's label
map reads as the configured defaults overlaid with "level" mapped to the
stream's severity. -/
theorem sendBatch_streams_partition (defaults : List (String × String))
    (entries : List entry) :
    (∀ l : String,
        ((sendBatchRequest defaults entries).Streams.filter
            (fun st => lookupLabel st.Stream "level" = some l)).length
          = if entries.any (fun e => e.Level = l) then 1 else 0) ∧
    ((sendBatchRequest defaults entries).Streams.flatMap (fun st => st.Values)).Perm
        (entries.map (fun e => [toString e.Timestamp, e.Message])) ∧
    (∀ st ∈ (sendBatchRequest defaults entries).Streams, ∃ l : String,
        (∃ e ∈ entries, e.Level = l) ∧
        st.Values = (entries.filter (fun e => e.Level = l)).map
            (fun e => [toString e.Timestamp, e.Message]) ∧
        (∀ k : String, lookupLabel st.Stream k
            = if k = "level" then some l else lookupLabel defaults k)) := by
  refine ⟨?_, ?_, ?_⟩
  · intro l
    rw [sendBatchRequest]
    simp only [entriesByLevel_eq, List.map_map]
    rw [List.filter_map, List.length_map]
    have hcongr : List.filter
        ((fun st => decide (lookupLabel st.Stream "level" = some l)) ∘
          ((streamOfGroup defaults) ∘ fun l2 => (l2, entries.filter (fun x => x.Level = l2))))
        (levelsOf entries)
        = List.filter (fun l2 => decide (l2 = l)) (levelsOf entries) := by
      apply List.filter_congr
      intro l2 _
      simp only [Function.comp, streamOfGroup, lookup_setLabel_self, Option.some.injEq]
    rw [hcongr, filter_eq_key_length (levelsOf entries) l (nodup_levelsOf entries)]
    by_cases h : l ∈ levelsOf entries
    · rcases (mem_levelsOf l entries).mp h with ⟨x, hx, hxl⟩
      have hany : entries.any (fun e => e.Level = l) = true :=
        List.any_eq_true.mpr ⟨x, hx, by simpa using hxl⟩
      rw [if_pos h, hany, if_pos rfl]
    · have hany : entries.any (fun e => e.Level = l) = false := by
        rw [List.any_eq_false]
        intro x hx
        simp only [decide_eq_true_eq]
        intro hxl
        exact h ((mem_levelsOf l entries).mpr ⟨x, hx, hxl⟩)
      rw [if_neg h, hany]
      simp
  · have hperm := (partition_perm entries).map (fun e => [toString e.Timestamp, e.Message])
    rw [List.map_flatMap] at hperm
    rw [sendBatchRequest]
    simp only [entriesByLevel_eq, List.map_map, flatMap_map_comp]
    simpa [Function.comp, streamOfGroup] using hperm
  · intro st hst
    rw [sendBatchRequest] at hst
    simp only [entriesByLevel_eq, List.map_map] at hst
    rcases List.mem_map.mp hst with ⟨l, hl, rfl⟩
    refine ⟨l, (mem_levelsOf l entries).mp hl, rfl, ?_⟩
    intro k
    by_cases hk : k = "level"
    · subst hk
      rw [if_pos rfl]
      exact lookup_setLabel_self defaults "level" l
    · rw [if_neg hk]
      exact lookup_setLabel_other defaults "level" l k hk

/-- Witness for C1 on a concrete three-record batch with two severities: the
info stream is a member of the built request and carries exactly the two info
records in arrival order, with the defaults plus the level label. -/
theorem sendBatch_streams_partition_witness :
    ∃ l : String,
      (∃ e ∈ ([{ Timestamp := 0, Message := "a", Level := "info" },
               { Timestamp := 1, Message := "b", Level := "error" },
               { Timestamp := 2, Message := "c", Level := "info" }] : List entry),
          e.Level = l) ∧
      (stream.mk [("app", "svc"), ("level", "info")] [["0", "a"], ["2", "c"]]).Values
        = (([{ Timestamp := 0, Message := "a", Level := "info" },
             { Timestamp := 1, Message := "b", Level := "error" },
             { Timestamp := 2, Message := "c", Level := "info" }] : List entry).filter
              (fun e => e.Level = l)).map (fun e => [toString e.Timestamp, e.Message]) ∧
      (∀ k : String,
          lookupLabel (stream.mk [("app", "svc"), ("level", "info")]
              [["0", "a"], ["2", "c"]]).Stream k
            = if k = "level" then some l else lookupLabel [("app", "svc")] k) :=
  (sendBatch_streams_partition [("app", "svc")]
      [{ Timestamp := 0, Message := "a", Level := "info" },
       { Timestamp := 1, Message := "b", Level := "error" },
       { Timestamp := 2, Message := "c", Level := "info" }]).2.2
    (stream.mk [("app", "svc"), ("level", "info")] [["0", "a"], ["2", "c"]])
    (by decide)

/-- C2: in the worker loop, when appending a dequeued record makes the current
batch's length reach the configured batch size, that batch (with the new
record last) is flushed on the spot — no timer tick intervenes in this very
loop iteration — and the current batch is reset to empty. -/
theorem recv_reaching_batchSize_flushes (bs : Int) (s : WorkerState) (e : entry)
    (hrun : s.stopped = false) (hfull : (s.batch.length : Int) + 1 = bs) :
    stepWorker bs s (.recv e) = ({ batch := [], stopped := false }, some (s.batch ++ [e])) := by
  have hlen : ((s.batch ++ [e]).length : Int) ≥ bs := by
    simp only [List.length_append, List.length_cons, List.length_nil]
    omega
  simp [stepWorker, hrun, hlen]
  omega

/-- Witness for C2 at batch size 2 with one pending record. -/
theorem recv_reaching_batchSize_flushes_witness :
    stepWorker 2 { batch := [{ Timestamp := 0, Message := "a", Level := "info" }], stopped := false }
        (.recv { Timestamp := 1, Message := "b", Level := "info" })
      = ({ batch := [], stopped := false },
         some [{ Timestamp := 0, Message := "a", Level := "info" },
               { Timestamp := 1, Message := "b", Level := "info" }]) :=
  recv_reaching_batchSize_flushes 2 _ _ rfl (by decide)

/-- C3: a timer tick flushes and resets the batch exactly when it is
non-empty; a tick on an empty batch changes nothing and flushes nothing (so
`sendBatch`, and with it the HTTP POST, is not invoked). -/
theorem tick_flushes_iff_nonempty (bs : Int) (s : WorkerState)
    (hrun : s.stopped = false) :
    (s.batch = [] → stepWorker bs s .tick = (s, none)) ∧
    (s.batch ≠ [] → stepWorker bs s .tick = ({ batch := [], stopped := false }, some s.batch)) := by
  constructor
  · intro h
    simp [stepWorker, hrun, h]
  · intro h
    have hpos : s.batch.length > 0 := List.length_pos.mpr h
    simp [stepWorker, hrun, hpos]

/-- Witness for C3: one tick on a singleton batch flushes it, one tick on an
empty batch does nothing. -/
theorem tick_flushes_iff_nonempty_witness :
    stepWorker 5 { batch := [{ Timestamp := 0, Message := "a", Level := "info" }], stopped := false } .tick
        = ({ batch := [], stopped := false },
           some [{ Timestamp := 0, Message := "a", Level := "info" }]) ∧
    stepWorker 5 { batch := [], stopped := false } .tick
        = ({ batch := [], stopped := false }, none) :=
  ⟨(tick_flushes_iff_nonempty 5 _ rfl).2 (by decide),
   (tick_flushes_iff_nonempty 5 _ rfl).1 rfl⟩

/-- C4: on the shutdown signal, a non-empty pending batch is flushed exactly
once, containing exactly the pending records, and the worker terminates: over
any continuation of the event trace no further flush occurs; an empty pending
batch is not flushed at all. -/
theorem stop_flushes_pending_once (bs : Int) (s : WorkerState) (evs : List WorkerEvent)
    (hrun : s.stopped = false) :
    (runWorker bs s (.done :: evs)).2 = (if s.batch = [] then [] else [s.batch]) ∧
    (runWorker bs s (.done :: evs)).1.stopped = true := by
  have hstep : stepWorker bs s .done
      = ({ s with stopped := true }, if s.batch.length > 0 then some s.batch else none) := by
    simp [stepWorker, hrun]
  have hrest := runWorker_stopped bs evs { s with stopped := true } rfl
  constructor
  · show (runWorker bs s (.done :: evs)).2 = _
    simp only [runWorker, hstep, hrest]
    by_cases h : s.batch = []
    · simp [h]
    · have hpos : s.batch.length > 0 := List.length_pos.mpr h
      simp [h, hpos]
  · simp [runWorker, hstep, hrest]

/-- Witness for C4: shutdown with one pending record flushes it once even when
further records and ticks follow the signal; shutdown on an empty batch
flushes nothing. -/
theorem stop_flushes_pending_once_witness :
    (runWorker 5 { batch := [{ Timestamp := 0, Message := "a", Level := "info" }], stopped := false }
        [.done, .recv { Timestamp := 1, Message := "b", Level := "info" }, .tick]).2
      = [[{ Timestamp := 0, Message := "a", Level := "info" }]] ∧
    (runWorker 5 { batch := [], stopped := false } [.done, .tick]).2 = [] :=
  ⟨(stop_flushes_pending_once 5 _ _ rfl).1,
   (stop_flushes_pending_once 5 _ _ rfl).1⟩

/-- C5: `Client.Log` is total — it never blocks its caller and returns no
error — and on the client built by `NewClient` the queue capacity is fixed at
twice the (defaulted) configured batch size: each call either appends the
record to a queue that is below capacity, emitting nothing, or leaves a full
queue unchanged and emits the local drop diagnostic. -/
theorem log_enqueues_or_drops (cfg : Config) (q : List entry) (ts : Int)
    (level message : String) :
    (NewClient cfg).queueCap = 2 * (NewClient cfg).BatchSize ∧
    (((q.length : Int) < (NewClient cfg).queueCap ∧
        Log (NewClient cfg).queueCap q ts level message
          = (q ++ [{ Timestamp := ts, Message := message, Level := level }], none)) ∨
     ((NewClient cfg).queueCap ≤ (q.length : Int) ∧
        Log (NewClient cfg).queueCap q ts level message
          = (q, some ("Loki client queue full, dropping log entry: " ++ message)))) := by
  constructor
  · simp only [NewClient]
    exact Int.mul_comm _ _
  · by_cases h : (q.length : Int) < (NewClient cfg).queueCap
    · exact Or.inl ⟨h, by simp [Log, h]⟩
    · exact Or.inr ⟨by omega, by simp [Log, h]⟩

/-- C6: the delivery adapter's severity inference scans the rendered line for
the five keywords in the fixed order debug, info, warn, error, fatal, takes
the first one present as the severity, and yields "info" when none is
present. -/
theorem write_severity_priority (s : String) :
    (contains s "debug" = true → lokiWriterLevel s = "debug") ∧
    (contains s "debug" = false → contains s "info" = true →
        lokiWriterLevel s = "info") ∧
    (contains s "debug" = false → contains s "info" = false →
        contains s "warn" = true → lokiWriterLevel s = "warn") ∧
    (contains s "debug" = false → contains s "info" = false →
        contains s "warn" = false → contains s "error" = true →
        lokiWriterLevel s = "error") ∧
    (contains s "debug" = false → contains s "info" = false →
        contains s "warn" = false → contains s "error" = false →
        contains s "fatal" = true → lokiWriterLevel s = "fatal") ∧
    (contains s "debug" = false → contains s "info" = false →
        contains s "warn" = false → contains s "error" = false →
        contains s "fatal" = false → lokiWriterLevel s = "info") := by
  have hconv : s.length = s.data.length := rfl
  refine ⟨?_, ?_, ?_, ?_, ?_, ?_⟩
  · intro h1
    have hlen := contains_data_ne_nil (by decide) h1
    have hlen2 : ¬s.length = 0 := by omega
    simp [lokiWriterLevel, hlen2, h1]
  · intro h1 h2
    have hlen := contains_data_ne_nil (by decide) h2
    have hlen2 : ¬s.length = 0 := by omega
    simp [lokiWriterLevel, hlen2, h1, h2]
  · intro h1 h2 h3
    have hlen := contains_data_ne_nil (by decide) h3
    have hlen2 : ¬s.length = 0 := by omega
    simp [lokiWriterLevel, hlen2, h1, h2, h3]
  · intro h1 h2 h3 h4
    have hlen := contains_data_ne_nil (by decide) h4
    have hlen2 : ¬s.length = 0 := by omega
    simp [lokiWriterLevel, hlen2, h1, h2, h3, h4]
  · intro h1 h2 h3 h4 h5
    have hlen := contains_data_ne_nil (by decide) h5
    have hlen2 : ¬s.length = 0 := by omega
    simp [lokiWriterLevel, hlen2, h1, h2, h3, h4, h5]
  · intro h1 h2 h3 h4 h5
    by_cases hlen : s.data.length > 0
    · have hlen2 : ¬s.length = 0 := by omega
      simp [lokiWriterLevel, hlen2, h1, h2, h3, h4, h5]
    · have hlen2 : s.length = 0 := by omega
      simp [lokiWriterLevel, hlen2]

/-- Witness for C6: a line containing both "debug" and "error" infers "debug"
(priority order), and the empty line infers "info". -/
theorem write_severity_priority_witness :
    lokiWriterLevel "a debug trace of an error" = "debug" ∧
    lokiWriterLevel "" = "info" :=
  ⟨(write_severity_priority _).1 (by decide),
   (write_severity_priority "").2.2.2.2.2 (by decide) (by decide) (by decide)
     (by decide) (by decide)⟩

/-- C7 counterexample: `Errorf`'s append is `LoadAndDelete` followed by `Set`,
two separately atomic operations, not one atomic swap/merge.  Interleaving two
concurrent appenders (both load, then both set) completes both appends
(`pc = 2`) yet leaves one message, not G×M = 2: an appended entry is lost. -/
theorem append_interleaved_loses :
    (let mA : LogMessage := { File := "a.go:1", Level := .err, Message := "a" }
     let mB : LogMessage := { File := "b.go:2", Level := .err, Message := "b" }
     let r := runSched (emptyStore, { pc := 0, acc := [], msg := mA },
        { pc := 0, acc := [], msg := mB }) [false, true, false, true]
     r.2.1.pc = 2 ∧ r.2.2.pc = 2 ∧
       storedMessages r.1 = [mB] ∧ (storedMessages r.1).length ≠ 2) := by
  decide

/-- C7 amended: appends that are serialized (each append's two store
operations run back to back) never lose an entry — K appends leave exactly the
K messages, in order, so the G×M count holds for non-overlapping appenders —
but overlapping concurrent appends may lose entries, as the counterexample
shows. -/
theorem append_serialized_no_loss (st : Store) (ms : List LogMessage) :
    storedMessages (appendAll st ms) = storedMessages st ++ ms ∧
    (storedMessages (appendAll emptyStore ms)).length = ms.length := by
  constructor
  · exact storedMessages_appendAll st ms
  · rw [storedMessages_appendAll]
    simp [storedMessages, emptyStore, loadedMessages]

/-- C8 counterexample: for a calling file path of exactly three segments the
stored `File` field keeps the whole path — three segments, not at most the
last two as the spec states (`specCallerLocation` renders the spec's words). -/
theorem caller_three_segments_counterexample :
    ctxMessages (Errorf (Ctx.withStore emptyStore) "a/b/c.go" 7 "x").1
      = [{ File := "a/b/c.go:7", Level := LogLevel.err, Message := "x" }] ∧
    specCallerLocation "a/b/c.go" 7 = "b/c.go:7" ∧
    ("a/b/c.go:7" : String) ≠ "b/c.go:7" := by
  decide

/-- C8 amended: the recorded caller location is the calling file's path,
followed by a colon and the line number, where the path is trimmed to its last
two segments when it has more than three slash-separated segments and is kept
whole when it has three or fewer; `Errorf` stores exactly this location in the
appended message's `File` field. -/
theorem caller_trimming (st : Store) (fileName : String) (line : Nat) (message : String) :
    ((splitSlash fileName).length > 3 →
        formatCaller fileName line = specCallerLocation fileName line) ∧
    ((splitSlash fileName).length ≤ 3 →
        formatCaller fileName line = fileName ++ ":" ++ toString line) ∧
    ctxMessages (Errorf (Ctx.withStore st) fileName line message).1
      = storedMessages st
          ++ [{ File := formatCaller fileName line, Level := LogLevel.err,
                Message := message }] := by
  refine ⟨?_, ?_, ?_⟩
  · intro h
    simp [formatCaller, specCallerLocation, h]
  · intro h
    have hnot : ¬((splitSlash fileName).length > 3) := by omega
    simp [formatCaller, hnot, joinSlash_splitSlash]
  · simp [Errorf, ctxMessages, storedMessages_appendMessage]

/-- Witness for C8 amended: a four-segment path is trimmed to its last two
segments; a three-segment path is kept whole. -/
theorem caller_trimming_witness :
    formatCaller "go/src/app/main.go" 12 = specCallerLocation "go/src/app/main.go" 12 ∧
    formatCaller "a/b/c.go" 7 = "a/b/c.go" ++ ":" ++ toString 7 :=
  ⟨(caller_trimming emptyStore "go/src/app/main.go" 12 "m").1 (by decide),
   (caller_trimming emptyStore "a/b/c.go" 7 "m").2.1 (by decide)⟩

/-- C9: `Debug` and `DebugF` are complete no-ops — the context (and any store
it carries) is unchanged and nothing is printed — whenever the APP_ENV
environment value uppercases to "PRODUCTION"; the flag is read on the call
itself, so a later call under a non-production environment appends its debug
message as usual. -/
theorem debug_suppressed_in_production (env env2 : String → String) (c : Ctx)
    (st : Store) (fileName : String) (line : Nat) (message : String)
    (hprod : toUpperStr (env "APP_ENV") = "PRODUCTION")
    (hdev : toUpperStr (env2 "APP_ENV") ≠ "PRODUCTION") :
    Debug env c fileName line message = (c, []) ∧
    DebugF env c fileName line message = (c, []) ∧
    ctxMessages (Debug env2 (Ctx.withStore st) fileName line message).1
      = storedMessages st
          ++ [{ File := formatCaller fileName line, Level := LogLevel.debug,
                Message := message }] := by
  have hne : toUpperStr (env "APP_ENV") ≠ "" := by
    rw [hprod]
    decide
  refine ⟨?_, ?_, ?_⟩
  · simp [Debug, hprod, hne]
  · simp [DebugF, hprod, hne]
  · have hcond : ¬(toUpperStr (env2 "APP_ENV") ≠ "" ∧
        toUpperStr (env2 "APP_ENV") = "PRODUCTION") := fun h => hdev h.2
    simp [Debug, hcond, ctxMessages, storedMessages_appendMessage]

/-- Witness for C9: APP_ENV="production" suppresses a debug append on a nil
context and on a bound store alike; APP_ENV="" does not suppress it. -/
theorem debug_suppressed_in_production_witness :
    Debug (fun _ => "production") Ctx.nilCtx "a/b.go" 3 "m" = (Ctx.nilCtx, []) ∧
    DebugF (fun _ => "production") Ctx.nilCtx "a/b.go" 3 "m" = (Ctx.nilCtx, []) ∧
    ctxMessages (Debug (fun _ => "") (Ctx.withStore emptyStore) "a/b.go" 3 "m").1
      = [{ File := "a/b.go:3", Level := LogLevel.debug, Message := "m" }] := by
  have h := debug_suppressed_in_production (fun _ => "production") (fun _ => "")
    Ctx.nilCtx emptyStore "a/b.go" 3 "m" (by decide) (by decide)
  refine ⟨h.1, h.2.1, ?_⟩
  rw [h.2.2]
  decide

/-- C10: `GetRequestId` always returns a non-empty string: a nil context, a
context with no bound store, an absent or nil request-id slot, a non-string
slot value, or an empty stored string all yield the freshly generated UUID
string, and a non-empty stored string is returned unchanged. -/
theorem getRequestId_nonempty (b : Fin 16 → Nat) (c : Ctx) (st : Store) (v : String) :
    GetRequestId b c ≠ "" ∧
    GetRequestId b Ctx.nilCtx = uuidString b ∧
    GetRequestId b Ctx.noStore = uuidString b ∧
    (st.load .requestId = none → GetRequestId b (.withStore st) = uuidString b) ∧
    (st.load .requestId = some .null → GetRequestId b (.withStore st) = uuidString b) ∧
    (st.load .requestId = some .other → GetRequestId b (.withStore st) = uuidString b) ∧
    (∀ l, st.load .requestId = some (.msgs l) →
        GetRequestId b (.withStore st) = uuidString b) ∧
    (st.load .requestId = some (.str "") → GetRequestId b (.withStore st) = uuidString b) ∧
    (v ≠ "" → st.load .requestId = some (.str v) → GetRequestId b (.withStore st) = v) := by
  have hw : ∀ st2 : Store, GetRequestId b (.withStore st2)
      = requestIdFrom b (st2.load .requestId) := fun _ => rfl
  refine ⟨?_, rfl, rfl, ?_, ?_, ?_, ?_, ?_, ?_⟩
  · cases c with
    | nilCtx => exact uuidString_ne_empty b
    | noStore => exact uuidString_ne_empty b
    | withStore st2 =>
      rw [hw]
      cases hv : st2.load .requestId with
      | none => exact uuidString_ne_empty b
      | some sv =>
        cases sv with
        | msgs l => exact uuidString_ne_empty b
        | null => exact uuidString_ne_empty b
        | other => exact uuidString_ne_empty b
        | str v2 =>
          by_cases hv2 : v2 = ""
          · simp [requestIdFrom, hv2, uuidString_ne_empty b]
          · simp [requestIdFrom, hv2]
  · intro h
    rw [hw, h]
    rfl
  · intro h
    rw [hw, h]
    rfl
  · intro h
    rw [hw, h]
    rfl
  · intro l h
    rw [hw, h]
    rfl
  · intro h
    rw [hw, h]
    simp [requestIdFrom]
  · intro hv h
    rw [hw, h]
    simp [requestIdFrom, hv]

/-- Witness for C10: a stored non-empty request id is returned unchanged, and
a nil context yields the rendered UUID of the drawn bytes. -/
theorem getRequestId_nonempty_witness :
    GetRequestId (fun _ => 0) (Ctx.withStore (Store.set emptyStore .requestId (.str "req-1"))) = "req-1" ∧
    GetRequestId (fun _ => 0) Ctx.nilCtx = "00000000-0000-0000-0000-000000000000" := by
  have h := getRequestId_nonempty (fun _ => 0)
    (Ctx.withStore (Store.set emptyStore .requestId (.str "req-1")))
    (Store.set emptyStore .requestId (.str "req-1")) "req-1"
  refine ⟨h.2.2.2.2.2.2.2.2 (by decide) (by decide), ?_⟩
  rw [h.2.1]
  decide

end Gokit
